import Mathlib

/-!
Verification of the set-associative cache simulator (`cache.c` / `cache.h`).

The C code is shallowly embedded: each C function becomes a Lean function on a
purely functional cache state.  Machine integers are modelled as `Nat`, with an
explicit `% 2^32` wherever the C code stores into a 32-bit `unsigned int` and
the value could conceivably exceed that width.  Addresses (`uintptr_t`) are
64 bits wide; theorems assume `address < 2^64`.  The backing memory — the host
address space that the `memcpy` in `cache_set_add` reads from — is a byte map
`mem : Nat → Nat` passed to the operations that use it; the simulator never
writes to it.  The injected random-number generator (`func_t`) is called at
most once per operation, so it is modelled by a `rand : Nat` argument holding
the value that call would return.
-/

namespace ReadCache

/-! ### Policy constants (`cache.h`) -/

def CACHE_REPLACEMENTPOLICY_MASK : Nat := 12

def CACHE_REPLACEMENTPOLICY_RANDOM : Nat := 0

def CACHE_REPLACEMENTPOLICY_LRU : Nat := 4

def CACHE_REPLACEMENTPOLICY_MRU : Nat := 8

def CACHE_WRITEPOLICY_MASK : Nat := 3

def CACHE_TRACE_MASK : Nat := 16

def CACHE_TRACEPOLICY : Nat := 16

/-! ### Data structures (`cache.h`) -/

/-- `cache_line_t`: the valid bit (an `int` that the code only ever sets to 0 or 1,
modelled as `Bool`), the tag, and the line's data block — the `line_size` bytes
behind the `block` pointer, stored inline here. -/
structure CacheLine where
  is_valid : Bool
  tag : Nat
  block : List Nat
  deriving DecidableEq

/-- `cache_set_t`.  In C a set views the slice
`lines[first_index .. first_index + size)` of the cache's global line array, and
slices of distinct sets are disjoint, so the slice itself is stored here and
`first_index` disappears.  `size` is the C field; it always equals the
associativity, i.e. the slice length. -/
structure CacheSet where
  size : Nat
  lines : List CacheLine
  mru_list : List Nat
  deriving DecidableEq

/-- `cache_t`.  The `memory` arena pointer is not represented: the arena only
provides storage for the line blocks, which are stored inline in `CacheLine`. -/
structure Cache where
  num_sets : Nat
  num_lines : Nat
  line_size : Nat
  associativity : Nat
  block_offset_mask : Nat
  cache_index_mask : Nat
  cache_index_shift : Nat
  tag_mask : Nat
  tag_shift : Nat
  policies : Nat
  sets : List CacheSet
  access_count : Nat
  miss_count : Nat
  deriving DecidableEq

/-! ### Line and set helpers (`cache.c`) -/

/-- `cache_line_check_validity_and_tag`: a line matches when it is valid and
holds the given tag. -/
def cache_line_check_validity_and_tag (cache_line : CacheLine) (tag : Nat) : Bool :=
  cache_line.is_valid && cache_line.tag == tag

/-- `cache_line_retrieve_data`: reinterpret the 4 block bytes starting at
`offset` as a `uint32_t` (little-endian, as on the hosts this code targets),
zero-extended to `long`. -/
def cache_line_retrieve_data (cache_line : CacheLine) (offset : Nat) : Nat :=
  cache_line.block.getD offset 0 + 2 ^ 8 * cache_line.block.getD (offset + 1) 0 +
    2 ^ 16 * cache_line.block.getD (offset + 2) 0 + 2 ^ 24 * cache_line.block.getD (offset + 3) 0

/-- Position of the first occurrence of `x` in a list (the
`index_of_line_index` search loop of `cache_line_make_mru`); `none` models the
C sentinel `-1`. -/
def scan_index_of (x : Nat) : List Nat → Option Nat
  | [] => none
  | y :: ys => if y == x then some 0 else (scan_index_of x ys).map (· + 1)

/-- `cache_line_make_mru`: bring `line_index` to the front of `mru_list`,
shifting the entries that were in front of its old position back by one.  When
`line_index` does not occur (`index_of_line_index = -1` in C) the shifting loop
does nothing and the head entry is simply overwritten. -/
def cache_line_make_mru (mru_list : List Nat) (line_index : Nat) : List Nat :=
  match scan_index_of line_index mru_list with
  | some i => line_index :: (mru_list.take i ++ mru_list.drop (i + 1))
  | none => line_index :: mru_list.drop 1

/-- The scan loop of `cache_set_find_matching_line`: index of the first line
that is valid and holds `tag`. -/
def scan_matching (tag : Nat) : List CacheLine → Option Nat
  | [] => none
  | l :: ls =>
      if cache_line_check_validity_and_tag l tag then some 0
      else (scan_matching tag ls).map (· + 1)

/-- `cache_set_find_matching_line`: scan the set for a valid line holding
`tag`; on a match, when the *whole* `policies` word equals
`CACHE_REPLACEMENTPOLICY_LRU` or `CACHE_REPLACEMENTPOLICY_MRU` (the C compares
with `==`, not through `CACHE_REPLACEMENTPOLICY_MASK`), the matched index is
made most recent.  Returns the matched slot index (the C function returns the
line pointer) together with the updated set. -/
def cache_set_find_matching_line (policies : Nat) (cache_set : CacheSet) (tag : Nat) :
    Option Nat × CacheSet :=
  match scan_matching tag cache_set.lines with
  | some i =>
      if policies = CACHE_REPLACEMENTPOLICY_LRU ∨ policies = CACHE_REPLACEMENTPOLICY_MRU then
        (some i, { cache_set with mru_list := cache_line_make_mru cache_set.mru_list i })
      else (some i, cache_set)
  | none => (none, cache_set)

/-- The first scan loop of `find_available_cache_line`: index of the first line
whose valid bit is clear. -/
def scan_first_invalid : List CacheLine → Option Nat
  | [] => none
  | l :: ls => if l.is_valid then (scan_first_invalid ls).map (· + 1) else some 0

/-- `find_available_cache_line`: prefer the first invalid line; otherwise pick
the victim according to the replacement policy (again compared with `==`
against the whole `policies` word, as in the C).  Returns the chosen slot index
together with the updated set. -/
def find_available_cache_line (policies : Nat) (cache_set : CacheSet) (rand : Nat) :
    Nat × CacheSet :=
  match scan_first_invalid cache_set.lines with
  | some i =>
      if policies = CACHE_REPLACEMENTPOLICY_MRU ∨ policies = CACHE_REPLACEMENTPOLICY_LRU then
        (i, { cache_set with mru_list := cache_line_make_mru cache_set.mru_list i })
      else (i, cache_set)
  | none =>
      if policies = CACHE_REPLACEMENTPOLICY_MRU then
        let victim := cache_set.mru_list.getD 0 0
        (victim, { cache_set with mru_list := cache_line_make_mru cache_set.mru_list victim })
      else if policies = CACHE_REPLACEMENTPOLICY_LRU then
        let lru_index := cache_set.mru_list.getD (cache_set.size - 1) 0
        (lru_index, { cache_set with mru_list := cache_line_make_mru cache_set.mru_list lru_index })
      else
        (rand % cache_set.size, cache_set)

/-- The `memcpy` source of `cache_set_add`: `line_size` bytes of host memory
starting at the block-aligned base `address & ~block_offset_mask` (complement
within the 64-bit `uintptr_t`). -/
def fill_block (line_size block_offset_mask : Nat) (mem : Nat → Nat) (address : Nat) :
    List Nat :=
  (List.range line_size).map fun j => mem ((address &&& ((2 ^ 64 - 1) ^^^ block_offset_mask)) + j)

/-- `cache_set_add`: choose a line via `find_available_cache_line`, overwrite
its tag, valid bit and block, and return its slot index with the updated set. -/
def cache_set_add (policies line_size block_offset_mask : Nat) (mem : Nat → Nat)
    (cache_set : CacheSet) (address tag rand : Nat) : Nat × CacheSet :=
  let p := find_available_cache_line policies cache_set rand
  let filled : CacheLine :=
    { is_valid := true, tag := tag,
      block := fill_block line_size block_offset_mask mem address }
  (p.1, { p.2 with lines := p.2.lines.set p.1 filled })

/-! ### Trace records (the `fprintf` calls in `cache_read`) -/

def spaces (n : Nat) : String := String.mk (List.replicate n (Char.ofNat 32))

/-- `%3u`: decimal, right-justified to at least three characters. -/
def fmt_u3 (n : Nat) : String :=
  let s := toString n
  spaces (3 - s.length) ++ s

def hex_digit (n : Nat) : Char := Char.ofNat (if n < 10 then 48 + n else 87 + n)

/-- Digit-emitting loop of `%x`.  The loop divides by 16 until 0, so it runs at
most `n` iterations; the first argument counts them explicitly, making the
recursion structural: `hex_chars_fuel fuel n` is the loop's output whenever
`n ≤ fuel`. -/
def hex_chars_fuel : Nat → Nat → List Char
  | 0, _ => []
  | fuel + 1, n => if n = 0 then [] else hex_chars_fuel fuel (n / 16) ++ [hex_digit (n % 16)]

def hex_chars (n : Nat) : List Char := hex_chars_fuel n n

/-- `%x` (`PRIxPTR`): lowercase hexadecimal without leading zeros, `"0"` for 0. -/
def fmt_hex (n : Nat) : String := if n = 0 then "0" else String.mk (hex_chars n)

/-- The record printed on the miss path of `cache_read` (line 275 of `cache.c`;
its text reads "Cache hit"). -/
def miss_trace_record (index address : Nat) : String :=
  "Cache hit in set " ++ fmt_u3 index ++ " for address 0x" ++ fmt_hex address ++ "\n"

/-- The record printed on the hit path of `cache_read` (line 282 of `cache.c`;
two spaces between "Cache" and "hit"). -/
def hit_trace_record (index address : Nat) : String :=
  "Cache  hit in set " ++ fmt_u3 index ++ " for address 0x" ++ fmt_hex address ++ "\n"

/-! ### `cache_read` and `cache_write` -/

/-- The three address components computed at the top of `cache_read`; `offset`
and `index` are stored into 32-bit `unsigned int` locals. -/
def decode_offset (cache : Cache) (address : Nat) : Nat :=
  (address &&& cache.block_offset_mask) % 2 ^ 32

def decode_index (cache : Cache) (address : Nat) : Nat :=
  ((address &&& cache.cache_index_mask) >>> cache.cache_index_shift) % 2 ^ 32

def decode_tag (cache : Cache) (address : Nat) : Nat :=
  (address &&& cache.tag_mask) >>> cache.tag_shift

/-- Result of `cache_read`: the value returned, the updated cache, and the
trace records written to `stderr`, in print order. -/
structure ReadResult where
  value : Nat
  cache : Cache
  trace : List String
  deriving DecidableEq

/-- `cache_read`.  Indexing `sets[index]` out of range is undefined behaviour
in C; it is modelled by a default empty set (the theorems below assume the
index is in range, as it is for every cache `cache_new` builds). -/
def cache_read (cache : Cache) (mem : Nat → Nat) (address rand : Nat) : ReadResult :=
  let offset := decode_offset cache address
  let index := decode_index cache address
  let tag := decode_tag cache address
  let cache_set := cache.sets.getD index ⟨0, [], []⟩
  let m := cache_set_find_matching_line cache.policies cache_set tag
  let access_count := (cache.access_count + 1) % 2 ^ 32
  match m.1 with
  | none =>
      let tr :=
        if cache.policies &&& CACHE_TRACE_MASK = CACHE_TRACEPOLICY then
          [miss_trace_record index address]
        else []
      let p :=
        cache_set_add cache.policies cache.line_size cache.block_offset_mask mem m.2 address
          tag rand
      let cache1 :=
        { cache with
            sets := cache.sets.set index p.2
            access_count := access_count
            miss_count := (cache.miss_count + 1) % 2 ^ 32 }
      { value := cache_line_retrieve_data (p.2.lines.getD p.1 ⟨false, 0, []⟩) offset,
        cache := cache1,
        trace := tr }
  | some i =>
      let tr :=
        if cache.policies &&& CACHE_TRACE_MASK = CACHE_TRACEPOLICY then
          [hit_trace_record index address]
        else []
      let cache1 :=
        { cache with
            sets := cache.sets.set index m.2
            access_count := access_count }
      { value := cache_line_retrieve_data (m.2.lines.getD i ⟨false, 0, []⟩) offset,
        cache := cache1,
        trace := tr }

/-- `cache_write`: the C body is empty ("OPTIONAL FUNCTION, YOU ARE NOT
REQUIRED TO IMPLEMENT IT"), so the cache is returned unchanged and nothing is
written to the backing memory. -/
def cache_write (cache : Cache) (address : Nat) (value : Int) (rand : Nat) : Cache :=
  cache

/-- `cache_miss_count`. -/
def cache_miss_count (cache : Cache) : Nat := cache.miss_count

/-- `cache_access_count`. -/
def cache_access_count (cache : Cache) : Nat := cache.access_count

/-! ### Construction (`cache_set_init`, `logbase2`, `maskbits`, `cache_new`) -/

/-- `cache_set_init`: record the associativity and the set's slice of lines,
clear every valid bit in the slice, and let `mru_list` be
`[0, 1, …, associativity-1]`.  The `lines` argument is the set's slice (in C:
the global array plus `first_index`); real calls pass a slice of length
`associativity`. -/
def cache_set_init (associativity : Nat) (lines : List CacheLine) : CacheSet :=
  { size := associativity,
    lines := lines.map fun l => { l with is_valid := false },
    mru_list := List.range associativity }

/-- The `while (value > 1) { ans++; value >>= 1; }` loop of `logbase2`.  It
halves at each step, so it runs at most `value` iterations; the first argument
counts them explicitly, making the recursion structural:
`logbase2_fuel fuel value` is the loop's result whenever `value ≤ fuel`. -/
def logbase2_fuel : Nat → Nat → Nat
  | 0, _ => 0
  | fuel + 1, value => if 1 < value then logbase2_fuel fuel (value / 2) + 1 else 0

/-- `logbase2`: halve until the value is at most 1, counting the steps.  The C
parameter is an `int`; at every call site the theorems below consider, the
argument is under `2^31`, where the `size_t`/`unsigned int` to `int` conversion
is value-preserving, so the conversion is not modelled. -/
def logbase2 (value : Nat) : Nat := logbase2_fuel value value

/-- `maskbits`: `(1L << nbits) - 1`, a mask `nbits` bits wide (well-defined in
C for `nbits ≤ 63`, which every use below satisfies). -/
def maskbits (nbits : Nat) : Nat := (1 <<< nbits) - 1

/-- `cache_new`: derive the geometry and the decode masks/shifts and build the
sets over freshly invalidated lines.  `num_lines` and `num_sets` are stored in
32-bit `unsigned int` fields.  The blocks point into the uninitialised
`malloc`ed arena; those bytes are modelled as zero (they are never read before
a fill overwrites them). -/
def cache_new (num_bytes block_size associativity policies : Nat) : Cache :=
  let num_lines := (num_bytes / block_size) % 2 ^ 32
  let num_sets := (num_lines / associativity) % 2 ^ 32
  let offset_bits := logbase2 block_size
  let index_bits := logbase2 num_sets
  { num_sets := num_sets,
    num_lines := num_lines,
    line_size := block_size,
    associativity := associativity,
    block_offset_mask := maskbits offset_bits,
    cache_index_mask := maskbits index_bits <<< offset_bits,
    cache_index_shift := offset_bits,
    tag_mask := maskbits (64 - (offset_bits + index_bits)) <<< (offset_bits + index_bits),
    tag_shift := offset_bits + index_bits,
    policies := policies,
    sets := (List.range num_sets).map fun _ =>
      cache_set_init associativity
        (List.replicate associativity ⟨false, 0, List.replicate block_size 0⟩),
    access_count := 0,
    miss_count := 0 }

/-! ### Composite access sequences used by the theorems -/

/-- The per-set effect of one `cache_read` access (lines 267–277 of `cache.c`):
look the tag up; on a miss, add the block. -/
def cache_set_access (policies line_size block_offset_mask : Nat) (mem : Nat → Nat)
    (cache_set : CacheSet) (address tag rand : Nat) : CacheSet :=
  let m := cache_set_find_matching_line policies cache_set tag
  match m.1 with
  | some _ => m.2
  | none => (cache_set_add policies line_size block_offset_mask mem m.2 address tag rand).2

/-- A sequence of per-set accesses, one `(address, tag)` pair each (the random
source is irrelevant under LRU/MRU and passed as 0). -/
def cache_set_access_seq (policies line_size block_offset_mask : Nat) (mem : Nat → Nat)
    (cache_set : CacheSet) (ps : List (Nat × Nat)) : CacheSet :=
  ps.foldl (fun s p => cache_set_access policies line_size block_offset_mask mem s p.1 p.2 0)
    cache_set

/-- A sequence of `cache_read`s of one address, with one random value per
read; returns the values read and the final cache. -/
def cache_read_seq (cache : Cache) (mem : Nat → Nat) (address : Nat) :
    List Nat → List Nat × Cache
  | [] => ([], cache)
  | r :: rs =>
      let R := cache_read cache mem address r
      let p := cache_read_seq R.cache mem address rs
      (R.value :: p.1, p.2)

/-- Structural well-formedness of a set, as established by `cache_set_init`
(with a slice of matching positive length) and preserved by all operations:
the C `size` field equals the slice length, the recency list has one entry per
line, there is at least one line, and every recency entry is a legal slot
index. -/
def set_wf (s : CacheSet) : Prop :=
  s.size = s.lines.length ∧ s.mru_list.length = s.lines.length ∧
    0 < s.lines.length ∧ ∀ x ∈ s.mru_list, x < s.lines.length

/-- The line that `cache_set_add` writes for an access `(address, tag)`. -/
def filled_line (line_size block_offset_mask : Nat) (mem : Nat → Nat) (p : Nat × Nat) :
    CacheLine :=
  { is_valid := true, tag := p.2, block := fill_block line_size block_offset_mask mem p.1 }

/-! ### Lemmas about the scan loops -/

theorem scan_index_of_isSome {x : Nat} {l : List Nat} (h : x ∈ l) :
    (scan_index_of x l).isSome := by
  induction l with
  | nil => cases h
  | cons y ys ih =>
      by_cases hy : (y == x) = true
      · simp [scan_index_of, hy]
      · rcases List.mem_cons.mp h with h | h
        · rw [h] at hy; simp at hy
        · simpa [scan_index_of, hy, Option.isSome_map'] using ih h

theorem scan_index_of_spec {x : Nat} {l : List Nat} {i : Nat}
    (h : scan_index_of x l = some i) : i < l.length ∧ l.getD i 0 = x := by
  induction l generalizing i with
  | nil => cases h
  | cons y ys ih =>
      by_cases hy : (y == x) = true
      · rw [scan_index_of, if_pos hy] at h
        cases h
        refine ⟨by simp, ?_⟩
        have : y = x := by simpa using hy
        simpa using this
      · rw [scan_index_of, if_neg hy, Option.map_eq_some'] at h
        obtain ⟨j, hj, hji⟩ := h
        obtain ⟨h1, h2⟩ := ih hj
        subst hji
        exact ⟨by simpa using h1, by simpa using h2⟩

theorem scan_index_of_split {x : Nat} {l : List Nat} {i : Nat}
    (h : scan_index_of x l = some i) : l = l.take i ++ x :: l.drop (i + 1) := by
  obtain ⟨hlen, hget⟩ := scan_index_of_spec h
  have hdrop : l.drop i = l[i] :: l.drop (i + 1) := List.drop_eq_getElem_cons hlen
  have hx : l[i] = x := by
    rw [List.getD_eq_getElem?_getD, List.getElem?_eq_getElem hlen] at hget
    simpa using hget
  calc l = l.take i ++ l.drop i := (List.take_append_drop i l).symm
    _ = l.take i ++ x :: l.drop (i + 1) := by rw [hdrop, hx]

theorem cache_line_make_mru_perm {mru : List Nat} {x : Nat} (h : x ∈ mru) :
    (cache_line_make_mru mru x).Perm mru := by
  obtain ⟨i, hi⟩ := Option.isSome_iff_exists.mp (scan_index_of_isSome h)
  have hsplit := scan_index_of_split hi
  unfold cache_line_make_mru
  rw [hi]
  conv_rhs => rw [hsplit]
  exact List.perm_middle.symm

theorem scan_first_invalid_isSome {l : List CacheLine}
    (h : ∃ x ∈ l, x.is_valid = false) : (scan_first_invalid l).isSome := by
  induction l with
  | nil => simp at h
  | cons y ys ih =>
      by_cases hy : y.is_valid
      · rcases h with ⟨x, hx, hxv⟩
        rcases List.mem_cons.mp hx with hx | hx
        · rw [hx] at hxv; rw [hxv] at hy; cases hy
        · simpa [scan_first_invalid, hy, Option.isSome_map'] using ih ⟨x, hx, hxv⟩
      · simp [scan_first_invalid, hy]

theorem scan_first_invalid_spec {l : List CacheLine} {i : Nat}
    (h : scan_first_invalid l = some i) :
    i < l.length ∧ (l.getD i ⟨true, 0, []⟩).is_valid = false ∧
      ∀ j < i, (l.getD j ⟨false, 0, []⟩).is_valid = true := by
  induction l generalizing i with
  | nil => cases h
  | cons y ys ih =>
      by_cases hy : y.is_valid
      · rw [scan_first_invalid, if_pos hy, Option.map_eq_some'] at h
        obtain ⟨j, hj, hji⟩ := h
        obtain ⟨h1, h2, h3⟩ := ih hj
        subst hji
        refine ⟨by simpa using h1, by simpa using h2, ?_⟩
        intro k hk
        cases k with
        | zero => simpa using hy
        | succ k => simpa using h3 k (by omega)
      · rw [scan_first_invalid, if_neg hy] at h
        cases h
        exact ⟨by simp, by simpa using hy, by omega⟩

/-- C7 helper: with an invalid line present, `find_available_cache_line` takes
its first branch and returns the index found by the scan, whatever the policy. -/
theorem find_available_cache_line_of_invalid {policies : Nat} {s : CacheSet} {rand : Nat}
    {i : Nat} (h : scan_first_invalid s.lines = some i) :
    (find_available_cache_line policies s rand).1 = i := by
  unfold find_available_cache_line
  rw [h]
  by_cases hp : policies = CACHE_REPLACEMENTPOLICY_MRU ∨ policies = CACHE_REPLACEMENTPOLICY_LRU
  · simp [hp]
  · simp [hp]

/-- On a missed lookup `cache_set_find_matching_line` returns the set
untouched. -/
theorem cache_set_find_matching_line_none_set {policies : Nat} {s : CacheSet} {tag : Nat}
    (h : (cache_set_find_matching_line policies s tag).1 = none) :
    (cache_set_find_matching_line policies s tag).2 = s := by
  unfold cache_set_find_matching_line at *
  cases hscan : scan_matching tag s.lines with
  | none => rfl
  | some i =>
      rw [hscan] at h
      by_cases hp : policies = CACHE_REPLACEMENTPOLICY_LRU ∨ policies = CACHE_REPLACEMENTPOLICY_MRU
      · simp [hp] at h
      · simp [hp] at h

theorem cache_read_access_count (cache : Cache) (mem : Nat → Nat) (address rand : Nat) :
    (cache_read cache mem address rand).cache.access_count =
      (cache.access_count + 1) % 2 ^ 32 := by
  cases h : (cache_set_find_matching_line cache.policies
      (cache.sets.getD (decode_index cache address) ⟨0, [], []⟩)
      (decode_tag cache address)).1 with
  | none =>
      simp only [cache_read]
      rw [h]
  | some i =>
      simp only [cache_read]
      rw [h]

theorem cache_read_miss_count_of_none {cache : Cache} {mem : Nat → Nat} {address rand : Nat}
    (h : (cache_set_find_matching_line cache.policies
        (cache.sets.getD (decode_index cache address) ⟨0, [], []⟩)
        (decode_tag cache address)).1 = none) :
    (cache_read cache mem address rand).cache.miss_count = (cache.miss_count + 1) % 2 ^ 32 := by
  simp only [cache_read]
  rw [h]

theorem cache_read_miss_count_of_some {cache : Cache} {mem : Nat → Nat} {address rand : Nat}
    {i : Nat} (h : (cache_set_find_matching_line cache.policies
        (cache.sets.getD (decode_index cache address) ⟨0, [], []⟩)
        (decode_tag cache address)).1 = some i) :
    (cache_read cache mem address rand).cache.miss_count = cache.miss_count := by
  simp only [cache_read]
  rw [h]

/-! ### Claim theorems: C7, C8, C10, C1, C2, C3 -/

/-- C7: for every replacement policy, whenever `find_available_cache_line` runs
on a set containing an invalid line, it returns the first invalid line in
slot-scan order; in particular no valid line is selected while an invalid one
exists. -/
theorem claim_C7 (policies : Nat) (s : CacheSet) (rand : Nat)
    (h : ∃ l ∈ s.lines, l.is_valid = false) :
    (find_available_cache_line policies s rand).1 < s.lines.length ∧
    (s.lines.getD (find_available_cache_line policies s rand).1 ⟨true, 0, []⟩).is_valid = false ∧
    ∀ j < (find_available_cache_line policies s rand).1,
      (s.lines.getD j ⟨false, 0, []⟩).is_valid = true := by
  obtain ⟨i, hi⟩ := Option.isSome_iff_exists.mp (scan_first_invalid_isSome h)
  obtain ⟨h1, h2, h3⟩ := scan_first_invalid_spec hi
  rw [find_available_cache_line_of_invalid hi]
  exact ⟨h1, h2, h3⟩

/-- C7 witness: a two-line set whose slot 0 is valid and slot 1 invalid under
the random policy; the selected slot is 1, the first invalid one. -/
theorem claim_C7_witness :
    (∃ l ∈ (⟨2, [⟨true, 3, []⟩, ⟨false, 0, []⟩], [0, 1]⟩ : CacheSet).lines,
        l.is_valid = false) ∧
    (find_available_cache_line CACHE_REPLACEMENTPOLICY_RANDOM
        (⟨2, [⟨true, 3, []⟩, ⟨false, 0, []⟩], [0, 1]⟩ : CacheSet) 7).1 <
      (⟨2, [⟨true, 3, []⟩, ⟨false, 0, []⟩], [0, 1]⟩ : CacheSet).lines.length :=
  ⟨⟨⟨false, 0, []⟩, by decide, rfl⟩,
    (claim_C7 CACHE_REPLACEMENTPOLICY_RANDOM
      (⟨2, [⟨true, 3, []⟩, ⟨false, 0, []⟩], [0, 1]⟩ : CacheSet) 7
      ⟨⟨false, 0, []⟩, by decide, rfl⟩).1⟩

/-- C8: after `cache_set_init` the recency list is a permutation of the line
indices `[0, associativity)`, and `cache_line_make_mru` called with an index
already present in the list preserves that permutation property. -/
theorem claim_C8 :
    (∀ (associativity : Nat) (lines : List CacheLine),
        (cache_set_init associativity lines).mru_list.Perm (List.range associativity)) ∧
    (∀ (mru_list : List Nat) (line_index associativity : Nat), line_index ∈ mru_list →
        mru_list.Perm (List.range associativity) →
        (cache_line_make_mru mru_list line_index).Perm (List.range associativity)) :=
  ⟨fun _ _ => List.Perm.refl _,
    fun _ _ _ hx hp => (cache_line_make_mru_perm hx).trans hp⟩

/-- C8 witness: promoting index 1 inside `[0, 1]` keeps a permutation of
`range 2`. -/
theorem claim_C8_witness :
    1 ∈ ([0, 1] : List Nat) ∧ ([0, 1] : List Nat).Perm (List.range 2) ∧
    (cache_line_make_mru [0, 1] 1).Perm (List.range 2) :=
  ⟨by decide, by decide, claim_C8.2 [0, 1] 1 2 (by decide) (by decide)⟩

/-- C10: `cache_write` is a pure no-op — the cache state (counters, sets with
all their lines and recency lists) is returned unchanged, and no memory write
occurs (the model gives `cache_write` no access to the backing memory because
the empty C body performs none). -/
theorem claim_C10 (cache : Cache) (address : Nat) (value : Int) (rand : Nat) :
    cache_write cache address value rand = cache ∧
    (cache_write cache address value rand).access_count = cache.access_count ∧
    (cache_write cache address value rand).miss_count = cache.miss_count ∧
    (cache_write cache address value rand).sets = cache.sets :=
  ⟨rfl, rfl, rfl, rfl⟩

/-- C1 counterexample: on a fresh cache, a `cache_write` call does not increase
`access_count` by 1 (the C body of `cache_write` is empty), refuting the claim
as stated. -/
theorem claim_C1_counterexample :
    ¬ (cache_write (cache_new 64 16 2 0) 0 0 0).access_count =
        (cache_new 64 16 2 0).access_count + 1 := by decide

/-- C1 (amended): each `cache_read` call increases `access_count` by exactly 1
and increases `miss_count` by exactly 1 precisely when its lookup misses
(counters below their 32-bit wrap-around); `cache_write`, whose C body is
empty, leaves both counters unchanged. -/
theorem claim_C1 (cache : Cache) (mem : Nat → Nat) (address rand : Nat) (value : Int)
    (ha : cache.access_count + 1 < 2 ^ 32) (hm : cache.miss_count + 1 < 2 ^ 32) :
    (cache_read cache mem address rand).cache.access_count = cache.access_count + 1 ∧
    ((cache_set_find_matching_line cache.policies
        (cache.sets.getD (decode_index cache address) ⟨0, [], []⟩)
        (decode_tag cache address)).1 = none →
      (cache_read cache mem address rand).cache.miss_count = cache.miss_count + 1) ∧
    (∀ i, (cache_set_find_matching_line cache.policies
        (cache.sets.getD (decode_index cache address) ⟨0, [], []⟩)
        (decode_tag cache address)).1 = some i →
      (cache_read cache mem address rand).cache.miss_count = cache.miss_count) ∧
    (cache_write cache address value rand).access_count = cache.access_count ∧
    (cache_write cache address value rand).miss_count = cache.miss_count := by
  refine ⟨?_, ?_, ?_, rfl, rfl⟩
  · rw [cache_read_access_count, Nat.mod_eq_of_lt ha]
  · intro h
    rw [cache_read_miss_count_of_none h, Nat.mod_eq_of_lt hm]
  · intro i h
    exact cache_read_miss_count_of_some h

/-- C1 witness: a fresh 2-way cache, one read of address 0 (a miss): both
counters go from 0 to 1. -/
theorem claim_C1_witness :
    (cache_new 64 16 2 0).access_count + 1 < 2 ^ 32 ∧
    (cache_new 64 16 2 0).miss_count + 1 < 2 ^ 32 ∧
    (cache_read (cache_new 64 16 2 0) (fun _ => 0) 0 0).cache.access_count =
      (cache_new 64 16 2 0).access_count + 1 :=
  ⟨by decide, by decide,
    (claim_C1 (cache_new 64 16 2 0) (fun _ => 0) 0 0 0 (by decide) (by decide)).1⟩

/-- C2: the claim fails on the code.  With `policies = 20` — replacement bits
`(20 &&& CACHE_REPLACEMENTPOLICY_MASK) = CACHE_REPLACEMENTPOLICY_LRU` plus the
independent trace bit — a `cache_read` hit on slot 1 leaves `mru_list` at
`[0, 1]` instead of promoting the matched slot to the head: the C code
compares the whole `policies` word with `==` instead of masking, contradicting
the check documented in `cache.h`.  With the bare LRU word (4) the same hit
does promote slot 1. -/
theorem claim_C2 :
    20 &&& CACHE_REPLACEMENTPOLICY_MASK = CACHE_REPLACEMENTPOLICY_LRU ∧
    (cache_set_find_matching_line 20
        (⟨2, [⟨false, 0, []⟩, ⟨true, 5, []⟩], [0, 1]⟩ : CacheSet) 5).1 = some 1 ∧
    (cache_set_find_matching_line 20
        (⟨2, [⟨false, 0, []⟩, ⟨true, 5, []⟩], [0, 1]⟩ : CacheSet) 5).2.mru_list = [0, 1] ∧
    (cache_set_find_matching_line CACHE_REPLACEMENTPOLICY_LRU
        (⟨2, [⟨false, 0, []⟩, ⟨true, 5, []⟩], [0, 1]⟩ : CacheSet) 5).2.mru_list = [1, 0] := by
  decide

/-- C3: the code bug evaluated.  With trace mode on (`policies = 16`), the
first read of address 0 misses and emits exactly one record, and that record
reads "Cache hit …" — it is not identifiable as a miss; the record of the
following hit of the same address differs only by a second space before
"hit".  Both records do carry the set index and the full address. -/
theorem claim_C3 :
    (cache_read (cache_new 64 16 2 CACHE_TRACEPOLICY) (fun _ => 0) 0 0).cache.miss_count = 1 ∧
    (cache_read (cache_new 64 16 2 CACHE_TRACEPOLICY) (fun _ => 0) 0 0).trace =
      ["Cache hit in set   0 for address 0x0\n"] ∧
    (cache_read (cache_read (cache_new 64 16 2 CACHE_TRACEPOLICY)
        (fun _ => 0) 0 0).cache (fun _ => 0) 0 0).cache.miss_count = 1 ∧
    (cache_read (cache_read (cache_new 64 16 2 CACHE_TRACEPOLICY)
        (fun _ => 0) 0 0).cache (fun _ => 0) 0 0).trace =
      ["Cache  hit in set   0 for address 0x0\n"] := by
  decide

/-! ### C4: losslessness of the address decomposition -/

theorem logbase2_fuel_pow : ∀ (b fuel : Nat), 2 ^ b ≤ fuel → logbase2_fuel fuel (2 ^ b) = b := by
  intro b
  induction b with
  | zero =>
      intro fuel h
      have h0 : 1 ≤ fuel := by simpa using h
      cases fuel with
      | zero => omega
      | succ f => simp [logbase2_fuel]
  | succ b ih =>
      intro fuel h
      have h1 : 1 ≤ 2 ^ b := Nat.one_le_two_pow
      have h2 : 2 ^ (b + 1) = 2 ^ b * 2 := pow_succ 2 b
      cases fuel with
      | zero => omega
      | succ f =>
          have hlt : 1 < 2 ^ (b + 1) := by omega
          have hdiv : 2 ^ (b + 1) / 2 = 2 ^ b := by omega
          rw [logbase2_fuel, if_pos hlt, hdiv, ih f (by omega)]

theorem logbase2_two_pow (b : Nat) : logbase2 (2 ^ b) = b :=
  logbase2_fuel_pow b (2 ^ b) le_rfl

theorem maskbits_eq (nbits : Nat) : maskbits nbits = 2 ^ nbits - 1 := by
  simp [maskbits, Nat.shiftLeft_eq]

/-- Core of C4: reassembling bits `[0,b)`, `[b,b+s)` and `[b+s,64)` of a 64-bit
address recovers the address; the two `% 2^32` are the `unsigned int` stores of
`offset` and `index` in `cache_read`, harmless for `b, s ≤ 32`. -/
theorem decode_reassemble {b s : Nat} (hb : b ≤ 32) (hs : s ≤ 32) {a : Nat}
    (ha : a < 2 ^ 64) :
    ((((a &&& ((2 ^ (64 - (b + s)) - 1) <<< (b + s))) >>> (b + s)) <<< (b + s)) |||
        ((((a &&& ((2 ^ s - 1) <<< b)) >>> b) % 2 ^ 32) <<< b)) |||
      ((a &&& (2 ^ b - 1)) % 2 ^ 32) = a := by
  apply Nat.eq_of_testBit_eq
  intro i
  simp only [Nat.testBit_or, Nat.testBit_and, Nat.testBit_shiftLeft, Nat.testBit_shiftRight,
    Nat.testBit_mod_two_pow, Nat.testBit_two_pow_sub_one]
  rcases Nat.lt_or_ge i b with h1 | h1
  · simp [show i < b from h1, show ¬ b ≤ i by omega, show ¬ b + s ≤ i by omega,
      show i < 32 by omega]
  · rcases Nat.lt_or_ge i (b + s) with h2 | h2
    · simp [show ¬ i < b by omega, show b ≤ i from h1, show ¬ b + s ≤ i by omega,
        show i - b < s by omega, show i - b < 32 by omega, show b + (i - b) = i by omega]
    · rcases Nat.lt_or_ge i 64 with h3 | h3
      · simp [show ¬ i < b by omega, show ¬ i - b < s by omega, show b + s ≤ i from h2,
          show i - (b + s) < 64 - (b + s) by omega, show b + s + (i - (b + s)) = i by omega]
      · have ha' : a < 2 ^ i := lt_of_lt_of_le ha (Nat.pow_le_pow_right (by norm_num) h3)
        simp [Nat.testBit_lt_two_pow ha', show ¬ i < 32 by omega, show ¬ i - b < 32 by omega,
          show ¬ i - (b + s) < 64 - (b + s) by omega]

/-- C4: for a cache built with a power-of-two `block_size = 2^b` whose derived
`num_sets` is a power of two `2^s` (with `b, s ≤ 30`, under which the C `int`
conversions and `1L << nbits` shifts are all well-defined and exact), the
tag/index/offset decomposition computed in `cache_read` is lossless for every
64-bit address. -/
theorem claim_C4 (num_bytes block_size associativity policies address b s : Nat)
    (hbs : block_size = 2 ^ b) (hb : b ≤ 30)
    (hns : (cache_new num_bytes block_size associativity policies).num_sets = 2 ^ s)
    (hs : s ≤ 30) (ha : address < 2 ^ 64) :
    ((decode_tag (cache_new num_bytes block_size associativity policies) address <<<
        (cache_new num_bytes block_size associativity policies).tag_shift) |||
      (decode_index (cache_new num_bytes block_size associativity policies) address <<<
        (cache_new num_bytes block_size associativity policies).cache_index_shift)) |||
      decode_offset (cache_new num_bytes block_size associativity policies) address =
      address := by
  subst hbs
  have hnum : num_bytes / 2 ^ b % 2 ^ 32 / associativity % 2 ^ 32 = 2 ^ s := by
    simpa [cache_new] using hns
  simp only [decode_tag, decode_index, decode_offset, cache_new, hnum,
    logbase2_two_pow, maskbits_eq]
  exact decode_reassemble (by omega) (by omega) ha

/-- C4 witness: a 1 KiB, 2-way cache with 16-byte blocks (so 32 sets) and the
address `0xDEADBEEF`. -/
theorem claim_C4_witness :
    (16 : Nat) = 2 ^ 4 ∧ (cache_new 1024 16 2 0).num_sets = 2 ^ 5 ∧
    ((decode_tag (cache_new 1024 16 2 0) 0xDEADBEEF <<< (cache_new 1024 16 2 0).tag_shift) |||
      (decode_index (cache_new 1024 16 2 0) 0xDEADBEEF <<<
        (cache_new 1024 16 2 0).cache_index_shift)) |||
      decode_offset (cache_new 1024 16 2 0) 0xDEADBEEF = 0xDEADBEEF :=
  ⟨by decide, by decide,
    claim_C4 1024 16 2 0 0xDEADBEEF 4 5 (by decide) (by decide) (by decide) (by decide)
      (by decide)⟩

/-! ### Lemmas for the LRU/MRU fill and eviction scenarios (C5, C6) -/

theorem scan_matching_eq_none {tag : Nat} {l : List CacheLine}
    (h : ∀ x ∈ l, cache_line_check_validity_and_tag x tag = false) :
    scan_matching tag l = none := by
  induction l with
  | nil => rfl
  | cons a l ih => simp [scan_matching, h a (by simp), ih fun x hx => h x (by simp [hx])]

theorem cache_set_find_matching_line_eq_none {policies : Nat} {s : CacheSet} {tag : Nat}
    (h : scan_matching tag s.lines = none) :
    cache_set_find_matching_line policies s tag = (none, s) := by
  unfold cache_set_find_matching_line
  rw [h]

theorem scan_first_invalid_append_valid {A : List CacheLine}
    (hA : ∀ x ∈ A, x.is_valid = true) {c : CacheLine} (hc : c.is_valid = false)
    (B : List CacheLine) : scan_first_invalid (A ++ c :: B) = some A.length := by
  induction A with
  | nil => simp [scan_first_invalid, hc]
  | cons a A ih =>
      have ha : a.is_valid = true := hA a (by simp)
      have hA' : ∀ x ∈ A, x.is_valid = true := fun x hx => hA x (by simp [hx])
      simp [scan_first_invalid, ha, ih hA']

theorem scan_index_of_cons_self (x : Nat) (B : List Nat) :
    scan_index_of x (x :: B) = some 0 := by
  simp [scan_index_of]

theorem scan_index_of_append_of_not_mem {x : Nat} {A : List Nat} (h : x ∉ A) (B : List Nat) :
    scan_index_of x (A ++ B) = (scan_index_of x B).map (· + A.length) := by
  induction A with
  | nil => cases hB : scan_index_of x B <;> simp [hB]
  | cons a A ih =>
      have hax : (a == x) = false := by
        rw [beq_eq_false_iff_ne]
        intro he
        exact h (by simp [he])
      have h' : x ∉ A := fun hx => h (by simp [hx])
      cases hB : scan_index_of x B <;>
        simp [scan_index_of, hax, ih h', hB, Nat.add_assoc]

theorem cache_line_make_mru_found {x : Nat} {A : List Nat} (h : x ∉ A) (B : List Nat) :
    cache_line_make_mru (A ++ x :: B) x = x :: (A ++ B) := by
  have htake : (A ++ x :: B).take A.length = A := List.take_left A (x :: B)
  have hdrop : (A ++ x :: B).drop (A.length + 1) = B := by
    rw [show A ++ x :: B = (A ++ [x]) ++ B by simp, List.drop_left' (by simp)]
  unfold cache_line_make_mru
  rw [scan_index_of_append_of_not_mem h, scan_index_of_cons_self]
  simp only [Option.map_some', Nat.zero_add]
  rw [htake, hdrop]

theorem cache_line_make_mru_head (x : Nat) (B : List Nat) :
    cache_line_make_mru (x :: B) x = x :: B := by
  simpa using cache_line_make_mru_found (x := x) (A := []) (by simp) B

theorem reverse_range_succ (n : Nat) :
    (List.range (n + 1)).reverse = n :: (List.range n).reverse := by
  rw [List.range_succ]
  simp

theorem reverse_range_split (n : Nat) :
    (List.range (n + 1)).reverse = (List.range' 1 n).reverse ++ [0] := by
  rw [List.range_eq_range', List.range'_succ]
  simp

/-- One fill access under LRU or MRU on a set whose first `done.length` slots
are the valid lines filled so far: the first invalid slot (slot `done.length`)
is filled and promoted to the head of the recency order. -/
theorem fill_step (policies line_size block_offset_mask : Nat) (mem : Nat → Nat)
    (hpol : policies = CACHE_REPLACEMENTPOLICY_LRU ∨ policies = CACHE_REPLACEMENTPOLICY_MRU)
    (done : List CacheLine) (c : CacheLine) (trest : List CacheLine) (k : Nat)
    (p : Nat × Nat) (rand : Nat)
    (hdone : ∀ x ∈ done, x.is_valid = true) (hc : c.is_valid = false)
    (hscan : scan_matching p.2 (done ++ c :: trest) = none) :
    cache_set_access policies line_size block_offset_mask mem
        { size := k, lines := done ++ c :: trest,
          mru_list := (List.range done.length).reverse ++
            List.range' done.length (trest.length + 1) } p.1 p.2 rand =
      { size := k,
        lines := done ++ filled_line line_size block_offset_mask mem p :: trest,
        mru_list := (List.range (done.length + 1)).reverse ++
          List.range' (done.length + 1) trest.length } := by
  unfold cache_set_access
  rw [cache_set_find_matching_line_eq_none (by simpa using hscan)]
  unfold cache_set_add find_available_cache_line
  simp only []
  rw [show scan_first_invalid (done ++ c :: trest) = some done.length from
    scan_first_invalid_append_valid hdone hc trest]
  simp only [Option.map_some']
  rw [if_pos hpol.symm, List.range'_succ]
  rw [cache_line_make_mru_found (by simp) (List.range' (done.length + 1) trest.length)]
  have hlines : (done ++ c :: trest).set done.length
      { is_valid := true, tag := p.2,
        block := fill_block line_size block_offset_mask mem p.1 } =
      done ++ filled_line line_size block_offset_mask mem p :: trest := by
    rw [List.set_append_right done.length _ (Nat.le_refl _)]
    simp [filled_line]
  simp only [hlines, reverse_range_succ, List.cons_append]

/-- The whole fill phase under LRU or MRU: starting from a state whose first
`done.length` slots hold valid lines and whose remaining slots are invalid,
with the recency list `[j-1, …, 0, j, j+1, …]`, a sequence of accesses with
fresh pairwise-distinct tags fills the invalid slots left to right, each fill
being promoted to the head of the recency order. -/
theorem fill_phase (policies line_size block_offset_mask : Nat) (mem : Nat → Nat)
    (hpol : policies = CACHE_REPLACEMENTPOLICY_LRU ∨ policies = CACHE_REPLACEMENTPOLICY_MRU) :
    ∀ (rest : List (Nat × Nat)) (done todo : List CacheLine) (k : Nat),
      (∀ x ∈ done, x.is_valid = true) →
      (∀ x ∈ todo, x.is_valid = false) →
      rest.length ≤ todo.length →
      ((done.map fun l => l.tag) ++ rest.map Prod.snd).Nodup →
      cache_set_access_seq policies line_size block_offset_mask mem
          { size := k, lines := done ++ todo,
            mru_list := (List.range done.length).reverse ++
              List.range' done.length todo.length } rest =
        { size := k,
          lines := (done ++ rest.map (filled_line line_size block_offset_mask mem)) ++
            todo.drop rest.length,
          mru_list := (List.range (done.length + rest.length)).reverse ++
            List.range' (done.length + rest.length) (todo.length - rest.length) } := by
  intro rest
  induction rest with
  | nil =>
      intro done todo k hdone htodo hlen hnodup
      simp [cache_set_access_seq]
  | cons p rest ih =>
      intro done todo k hdone htodo hlen hnodup
      cases todo with
      | nil => simp at hlen
      | cons c trest =>
          have hc : c.is_valid = false := htodo c (by simp)
          have htrest : ∀ x ∈ trest, x.is_valid = false := fun x hx => htodo x (by simp [hx])
          have hp2 : p.2 ∉ done.map fun l => l.tag := by
            have hd := List.disjoint_of_nodup_append hnodup
            intro hmem
            exact hd hmem (by simp)
          have hscan : scan_matching p.2 (done ++ c :: trest) = none := by
            apply scan_matching_eq_none
            intro x hx
            rcases List.mem_append.mp hx with hx | hx
            · have hne : ¬ x.tag = p.2 := fun he => hp2 (List.mem_map.mpr ⟨x, hx, he⟩)
              simp [cache_line_check_validity_and_tag, hne]
            · have hxv := htodo x hx
              simp [cache_line_check_validity_and_tag, hxv]
          have hfold : cache_set_access_seq policies line_size block_offset_mask mem
              { size := k, lines := done ++ c :: trest,
                mru_list := (List.range done.length).reverse ++
                  List.range' done.length (c :: trest).length } (p :: rest) =
              cache_set_access_seq policies line_size block_offset_mask mem
                { size := k,
                  lines := done ++ filled_line line_size block_offset_mask mem p :: trest,
                  mru_list := (List.range (done.length + 1)).reverse ++
                    List.range' (done.length + 1) trest.length } rest := by
            rw [cache_set_access_seq, List.foldl_cons]
            rw [show (c :: trest).length = trest.length + 1 from rfl]
            rw [fill_step policies line_size block_offset_mask mem hpol done c trest k p 0
              hdone hc hscan]
            rfl
          rw [hfold]
          have ihx := ih (done ++ [filled_line line_size block_offset_mask mem p]) trest k
            (by intro x hx
                rcases List.mem_append.mp hx with hx | hx
                · exact hdone x hx
                · simp at hx
                  simp [hx, filled_line])
            htrest
            (by simpa using Nat.lt_succ_iff.mp (Nat.lt_succ_of_le (by simpa using hlen)))
            (by
              have : ((done ++ [filled_line line_size block_offset_mask mem p]).map
                  fun l => l.tag) ++ rest.map Prod.snd =
                  (done.map fun l => l.tag) ++ (p :: rest).map Prod.snd := by
                simp [filled_line]
              rw [this]
              exact hnodup)
          simp only [List.append_assoc, List.singleton_append, List.length_append,
            List.length_cons, List.length_nil, Nat.add_zero, Nat.zero_add] at ihx
          rw [ihx]
          simp only [CacheSet.mk.injEq]
          refine ⟨trivial, by simp, ?_⟩
          have h1 : done.length + 1 + rest.length = done.length + (p :: rest).length := by
            simp only [List.length_cons]
            omega
          have h2 : trest.length - rest.length = (c :: trest).length - (p :: rest).length := by
            simp only [List.length_cons]
            omega
          rw [h1, h2]

theorem getD_map_of_lt {α β : Type} (f : α → β) (l : List α) (i : Nat) (hi : i < l.length)
    (d : α) (e : β) : (l.map f).getD i e = f (l.getD i d) := by
  rw [List.getD_eq_getElem?_getD, List.getD_eq_getElem?_getD,
    List.getElem?_eq_getElem (by simpa using hi), List.getElem?_eq_getElem hi]
  simp

theorem getD_set_self {α : Type} (l : List α) (i : Nat) (hi : i < l.length) (v d : α) :
    (l.set i v).getD i d = v := by
  rw [List.getD_eq_getElem?_getD, List.getElem?_eq_getElem (by simpa using hi)]
  simp

theorem getD_set_ne {α : Type} (l : List α) {i j : Nat} (h : i ≠ j) (v d : α) :
    (l.set i v).getD j d = l.getD j d := by
  rw [List.getD_eq_getElem?_getD, List.getD_eq_getElem?_getD, List.getElem?_set_ne h]

theorem scan_first_invalid_eq_none {l : List CacheLine}
    (h : ∀ x ∈ l, x.is_valid = true) : scan_first_invalid l = none := by
  induction l with
  | nil => rfl
  | cons a l ih =>
      simp [scan_first_invalid, h a (by simp), ih fun x hx => h x (by simp [hx])]

/-- Filling a freshly initialised set of `k` lines with `k` accesses with
pairwise-distinct tags (under LRU or MRU) makes every line valid, lines in
slot order of the accesses, with the recency order `[k-1, …, 1, 0]`. -/
theorem full_fill (policies line_size block_offset_mask : Nat) (mem : Nat → Nat)
    (hpol : policies = CACHE_REPLACEMENTPOLICY_LRU ∨ policies = CACHE_REPLACEMENTPOLICY_MRU)
    (k : Nat) (init : List CacheLine) (hinit : init.length = k)
    (ps : List (Nat × Nat)) (hlen : ps.length = k) (hnodup : (ps.map Prod.snd).Nodup) :
    cache_set_access_seq policies line_size block_offset_mask mem (cache_set_init k init) ps =
      { size := k, lines := ps.map (filled_line line_size block_offset_mask mem),
        mru_list := (List.range k).reverse } := by
  have h0 := fill_phase policies line_size block_offset_mask mem hpol ps []
    (init.map fun l => { l with is_valid := false }) k (by simp)
    (by
      intro x hx
      obtain ⟨y, _, rfl⟩ := List.mem_map.mp hx
      rfl)
    (by simp [hinit, hlen])
    (by simpa using hnodup)
  simp only [List.nil_append, List.length_nil, List.length_map, hinit, hlen, List.range_zero,
    List.reverse_nil, Nat.zero_add, Nat.sub_self, List.range'_zero, List.append_nil] at h0
  rw [show cache_set_init k init =
      { size := k, lines := init.map fun l => { l with is_valid := false },
        mru_list := List.range' 0 k } from by
    simp [cache_set_init, List.range_eq_range']]
  rw [h0]
  have hdrop : List.drop k (init.map fun l => { l with is_valid := false }) = [] :=
    List.drop_eq_nil_of_le (by simp [hinit])
  simp [hdrop]

/-- C5: under LRU, filling a fresh set of associativity `k` with `k` accesses
`L1..Lk` of pairwise-distinct tags leaves every line valid; a further access
with a fresh tag then evicts slot 0 — the line of `L1`, the least recently
touched — overwrites it with the new block, leaves every other line intact,
and puts the new line's slot at the head of the recency order. -/
theorem claim_C5 (k : Nat) (hk : 1 ≤ k) (init : List CacheLine) (hinit : init.length = k)
    (line_size block_offset_mask : Nat) (mem : Nat → Nat) (ps : List (Nat × Nat))
    (hlen : ps.length = k) (hnodup : (ps.map Prod.snd).Nodup) (anew tnew : Nat)
    (htnew : tnew ∉ ps.map Prod.snd) (rand : Nat) (sFull sFinal : CacheSet)
    (hfull : sFull = cache_set_access_seq CACHE_REPLACEMENTPOLICY_LRU line_size
      block_offset_mask mem (cache_set_init k init) ps)
    (hfinal : sFinal = cache_set_access CACHE_REPLACEMENTPOLICY_LRU line_size
      block_offset_mask mem sFull anew tnew rand) :
    (∀ i < k, (sFull.lines.getD i ⟨false, 0, []⟩).is_valid = true) ∧
    (∀ i < k, (sFull.lines.getD i ⟨false, 0, []⟩).tag = (ps.getD i (0, 0)).2) ∧
    sFinal.lines.getD 0 ⟨false, 0, []⟩ =
      filled_line line_size block_offset_mask mem (anew, tnew) ∧
    (∀ i, 1 ≤ i → i < k →
      sFinal.lines.getD i ⟨false, 0, []⟩ = sFull.lines.getD i ⟨false, 0, []⟩) ∧
    sFinal.mru_list = 0 :: (List.range' 1 (k - 1)).reverse := by
  subst hfull
  rw [full_fill CACHE_REPLACEMENTPOLICY_LRU line_size block_offset_mask mem (Or.inl rfl)
    k init hinit ps hlen hnodup] at hfinal ⊢
  have hmapv : ∀ x ∈ ps.map (filled_line line_size block_offset_mask mem),
      x.is_valid = true := by
    intro x hx
    obtain ⟨p, _, rfl⟩ := List.mem_map.mp hx
    rfl
  have hscan : scan_matching tnew (ps.map (filled_line line_size block_offset_mask mem)) =
      none := by
    apply scan_matching_eq_none
    intro x hx
    obtain ⟨p, hp, rfl⟩ := List.mem_map.mp hx
    have hne : ¬ (filled_line line_size block_offset_mask mem p).tag = tnew := by
      intro he
      exact htnew (List.mem_map.mpr ⟨p, hp, he⟩)
    simp [cache_line_check_validity_and_tag, filled_line] at hne ⊢
    simp [hne]
  cases k with
  | zero => omega
  | succ m =>
      have hvict : (((List.range' 1 m).reverse ++ [0]).getD (m + 1 - 1) 0) = 0 := by
        rw [List.getD_eq_getElem?_getD, List.getElem?_append_right (by simp)]
        simp
      have hmru0 : (0 : Nat) ∉ (List.range' 1 m).reverse := by
        intro h
        rw [List.mem_reverse, List.mem_range'] at h
        obtain ⟨i, hi, he⟩ := h
        omega
      have hstep : sFinal =
          { size := m + 1,
            lines := (ps.map (filled_line line_size block_offset_mask mem)).set 0
              (filled_line line_size block_offset_mask mem (anew, tnew)),
            mru_list := 0 :: (List.range' 1 m).reverse } := by
        rw [hfinal]
        unfold cache_set_access
        rw [cache_set_find_matching_line_eq_none (by simpa using hscan)]
        simp only [cache_set_add, find_available_cache_line,
          scan_first_invalid_eq_none hmapv, CACHE_REPLACEMENTPOLICY_LRU,
          CACHE_REPLACEMENTPOLICY_MRU]
        rw [reverse_range_split, hvict, cache_line_make_mru_found hmru0 []]
        simp [filled_line]
      refine ⟨?_, ?_, ?_, ?_, ?_⟩
      · intro i hi
        rw [getD_map_of_lt _ ps i (by omega) (0, 0)]
        rfl
      · intro i hi
        rw [getD_map_of_lt _ ps i (by omega) (0, 0)]
        rfl
      · rw [hstep]
        exact getD_set_self _ 0 (by simp; omega) _ _
      · intro i h1 h2
        rw [hstep]
        exact getD_set_ne _ (by omega) _ _
      · rw [hstep]
        rfl

/-- C6: under MRU, the same fill leaves the recency head at slot `k-1` (the
line of `Lk`); the further fresh-tag access evicts slot `k-1` — the most
recently touched line, not `L1` — overwrites it, leaves every other line (in
particular slot 0, the line of `L1`) intact, and keeps slot `k-1` at the head
of the recency order. -/
theorem claim_C6 (k : Nat) (hk : 1 ≤ k) (init : List CacheLine) (hinit : init.length = k)
    (line_size block_offset_mask : Nat) (mem : Nat → Nat) (ps : List (Nat × Nat))
    (hlen : ps.length = k) (hnodup : (ps.map Prod.snd).Nodup) (anew tnew : Nat)
    (htnew : tnew ∉ ps.map Prod.snd) (rand : Nat) (sFull sFinal : CacheSet)
    (hfull : sFull = cache_set_access_seq CACHE_REPLACEMENTPOLICY_MRU line_size
      block_offset_mask mem (cache_set_init k init) ps)
    (hfinal : sFinal = cache_set_access CACHE_REPLACEMENTPOLICY_MRU line_size
      block_offset_mask mem sFull anew tnew rand) :
    sFull.mru_list.getD 0 0 = k - 1 ∧
    sFinal.lines.getD (k - 1) ⟨false, 0, []⟩ =
      filled_line line_size block_offset_mask mem (anew, tnew) ∧
    (∀ i < k - 1,
      sFinal.lines.getD i ⟨false, 0, []⟩ = sFull.lines.getD i ⟨false, 0, []⟩) ∧
    sFinal.mru_list = sFull.mru_list := by
  subst hfull
  rw [full_fill CACHE_REPLACEMENTPOLICY_MRU line_size block_offset_mask mem (Or.inr rfl)
    k init hinit ps hlen hnodup] at hfinal ⊢
  have hmapv : ∀ x ∈ ps.map (filled_line line_size block_offset_mask mem),
      x.is_valid = true := by
    intro x hx
    obtain ⟨p, _, rfl⟩ := List.mem_map.mp hx
    rfl
  have hscan : scan_matching tnew (ps.map (filled_line line_size block_offset_mask mem)) =
      none := by
    apply scan_matching_eq_none
    intro x hx
    obtain ⟨p, hp, rfl⟩ := List.mem_map.mp hx
    have hne : ¬ (filled_line line_size block_offset_mask mem p).tag = tnew := by
      intro he
      exact htnew (List.mem_map.mpr ⟨p, hp, he⟩)
    simp [cache_line_check_validity_and_tag, filled_line] at hne ⊢
    simp [hne]
  cases k with
  | zero => omega
  | succ m =>
      have hhead : ((List.range (m + 1)).reverse : List Nat).getD 0 0 = m := by
        rw [reverse_range_succ]
        rfl
      have hstep : sFinal =
          { size := m + 1,
            lines := (ps.map (filled_line line_size block_offset_mask mem)).set m
              (filled_line line_size block_offset_mask mem (anew, tnew)),
            mru_list := (List.range (m + 1)).reverse } := by
        rw [hfinal]
        unfold cache_set_access
        rw [cache_set_find_matching_line_eq_none (by simpa using hscan)]
        simp only [cache_set_add, find_available_cache_line,
          scan_first_invalid_eq_none hmapv, CACHE_REPLACEMENTPOLICY_MRU]
        rw [hhead]
        rw [show (List.range (m + 1)).reverse = m :: (List.range m).reverse from
          reverse_range_succ m]
        rw [cache_line_make_mru_head]
        simp [filled_line]
      refine ⟨by simpa using hhead, ?_, ?_, ?_⟩
      · rw [hstep]
        exact getD_set_self _ m (by simp; omega) _ _
      · intro i hi
        rw [hstep]
        exact getD_set_ne _ (by omega) _ _
      · rw [hstep]

/-- C5 witness: a 2-way fresh set under LRU, filled with tags 10 and 11, then
an access with tag 12: the new line's slot 0 heads the recency order. -/
theorem claim_C5_witness :
    (cache_set_access CACHE_REPLACEMENTPOLICY_LRU 4 3 (fun _ => 0)
        (cache_set_access_seq CACHE_REPLACEMENTPOLICY_LRU 4 3 (fun _ => 0)
          (cache_set_init 2 [⟨false, 0, []⟩, ⟨false, 0, []⟩]) [(0, 10), (4, 11)])
        8 12 0).mru_list = 0 :: (List.range' 1 (2 - 1)).reverse :=
  (claim_C5 2 (by decide) [⟨false, 0, []⟩, ⟨false, 0, []⟩] (by decide) 4 3 (fun _ => 0)
    [(0, 10), (4, 11)] (by decide) (by decide) 8 12 (by decide) 0 _ _ rfl rfl).2.2.2.2

/-- C6 witness: the same scenario under MRU: after the fill the recency head is
slot 1 = k-1, the line of the last access. -/
theorem claim_C6_witness :
    (cache_set_access_seq CACHE_REPLACEMENTPOLICY_MRU 4 3 (fun _ => 0)
        (cache_set_init 2 [⟨false, 0, []⟩, ⟨false, 0, []⟩])
        [(0, 10), (4, 11)]).mru_list.getD 0 0 = 2 - 1 :=
  (claim_C6 2 (by decide) [⟨false, 0, []⟩, ⟨false, 0, []⟩] (by decide) 4 3 (fun _ => 0)
    [(0, 10), (4, 11)] (by decide) (by decide) 8 12 (by decide) 0 _ _ rfl rfl).1

/-! ### Lemmas for repeated reads of one address (C9) -/

theorem getD_mem {α : Type} {l : List α} {i : Nat} (hi : i < l.length) (d : α) :
    l.getD i d ∈ l := by
  rw [List.getD_eq_getElem?_getD, List.getElem?_eq_getElem hi]
  simpa using List.getElem_mem hi

theorem check_false_of_scan_matching_none {tag : Nat} {l : List CacheLine}
    (h : scan_matching tag l = none) :
    ∀ x ∈ l, cache_line_check_validity_and_tag x tag = false := by
  induction l with
  | nil => simp
  | cons a l ih =>
      by_cases ha : cache_line_check_validity_and_tag a tag = true
      · rw [scan_matching, if_pos ha] at h
        cases h
      · rw [scan_matching, if_neg ha, Option.map_eq_none'] at h
        intro x hx
        rcases List.mem_cons.mp hx with rfl | hx
        · simpa using ha
        · exact ih h x hx

theorem scan_matching_set {tag : Nat} {l : List CacheLine} {v : Nat} {x : CacheLine}
    (hall : ∀ y ∈ l, cache_line_check_validity_and_tag y tag = false)
    (hx : cache_line_check_validity_and_tag x tag = true) (hv : v < l.length) :
    scan_matching tag (l.set v x) = some v := by
  induction l generalizing v with
  | nil => simp at hv
  | cons a l ih =>
      cases v with
      | zero => simp [scan_matching, hx]
      | succ v =>
          have ha := hall a (by simp)
          simp [scan_matching, ha,
            ih (fun y hy => hall y (by simp [hy])) (by simpa using hv)]

theorem cache_set_find_matching_line_fst (policies : Nat) (s : CacheSet) (tag : Nat) :
    (cache_set_find_matching_line policies s tag).1 = scan_matching tag s.lines := by
  unfold cache_set_find_matching_line
  cases h : scan_matching tag s.lines with
  | none => rfl
  | some i =>
      by_cases hp : policies = CACHE_REPLACEMENTPOLICY_LRU ∨ policies = CACHE_REPLACEMENTPOLICY_MRU
      · simp [hp]
      · simp [hp]

theorem cache_set_find_matching_line_lines (policies : Nat) (s : CacheSet) (tag : Nat) :
    (cache_set_find_matching_line policies s tag).2.lines = s.lines := by
  unfold cache_set_find_matching_line
  cases h : scan_matching tag s.lines with
  | none => rfl
  | some i =>
      by_cases hp : policies = CACHE_REPLACEMENTPOLICY_LRU ∨ policies = CACHE_REPLACEMENTPOLICY_MRU
      · simp [hp]
      · simp [hp]

theorem find_available_cache_line_lines (policies : Nat) (s : CacheSet) (rand : Nat) :
    (find_available_cache_line policies s rand).2.lines = s.lines := by
  unfold find_available_cache_line
  cases h : scan_first_invalid s.lines with
  | some i =>
      by_cases hp : policies = CACHE_REPLACEMENTPOLICY_MRU ∨ policies = CACHE_REPLACEMENTPOLICY_LRU
      · simp [hp]
      · simp [hp]
  | none =>
      by_cases h8 : policies = CACHE_REPLACEMENTPOLICY_MRU
      · simp [h8]
      · by_cases h4 : policies = CACHE_REPLACEMENTPOLICY_LRU
        · simp [h8, h4, CACHE_REPLACEMENTPOLICY_LRU, CACHE_REPLACEMENTPOLICY_MRU]
        · simp [h8, h4]

/-- On a well-formed set, `find_available_cache_line` always selects a slot in
range, whatever the policy. -/
theorem find_available_cache_line_lt {policies : Nat} {s : CacheSet} {rand : Nat}
    (hwf : set_wf s) : (find_available_cache_line policies s rand).1 < s.lines.length := by
  obtain ⟨hsz, hmlen, hpos, hmem⟩ := hwf
  unfold find_available_cache_line
  cases h : scan_first_invalid s.lines with
  | some i =>
      have hi := (scan_first_invalid_spec h).1
      by_cases hp : policies = CACHE_REPLACEMENTPOLICY_MRU ∨ policies = CACHE_REPLACEMENTPOLICY_LRU
      · simpa [hp] using hi
      · simpa [hp] using hi
  | none =>
      by_cases h8 : policies = CACHE_REPLACEMENTPOLICY_MRU
      · simp only [h8, if_pos]
        exact hmem _ (getD_mem (by omega) 0)
      · by_cases h4 : policies = CACHE_REPLACEMENTPOLICY_LRU
        · simp only [h8, h4, if_neg, if_pos]
          have : s.size - 1 < s.mru_list.length := by omega
          exact hmem _ (getD_mem this 0)
        · simp only [h8, h4, if_neg]
          exact Nat.lt_of_lt_of_le (Nat.mod_lt rand (by omega)) (by omega)

/-- Explicit form of `cache_read` on a hit. -/
theorem cache_read_hit {cache : Cache} (mem : Nat → Nat) {address : Nat} (rand : Nat)
    {i : Nat}
    (h : (cache_set_find_matching_line cache.policies
        (cache.sets.getD (decode_index cache address) ⟨0, [], []⟩)
        (decode_tag cache address)).1 = some i) :
    cache_read cache mem address rand =
      { value := cache_line_retrieve_data
          ((cache_set_find_matching_line cache.policies
              (cache.sets.getD (decode_index cache address) ⟨0, [], []⟩)
              (decode_tag cache address)).2.lines.getD i ⟨false, 0, []⟩)
          (decode_offset cache address),
        cache := { cache with
            sets := cache.sets.set (decode_index cache address)
              (cache_set_find_matching_line cache.policies
                (cache.sets.getD (decode_index cache address) ⟨0, [], []⟩)
                (decode_tag cache address)).2
            access_count := (cache.access_count + 1) % 2 ^ 32 },
        trace := if cache.policies &&& CACHE_TRACE_MASK = CACHE_TRACEPOLICY then
            [hit_trace_record (decode_index cache address) address]
          else [] } := by
  simp only [cache_read]
  rw [h]

/-- Explicit form of `cache_read` on a miss. -/
theorem cache_read_miss {cache : Cache} (mem : Nat → Nat) {address : Nat} (rand : Nat)
    (h : (cache_set_find_matching_line cache.policies
        (cache.sets.getD (decode_index cache address) ⟨0, [], []⟩)
        (decode_tag cache address)).1 = none) :
    cache_read cache mem address rand =
      { value := cache_line_retrieve_data
          ((cache_set_add cache.policies cache.line_size cache.block_offset_mask mem
              (cache.sets.getD (decode_index cache address) ⟨0, [], []⟩) address
              (decode_tag cache address) rand).2.lines.getD
            (cache_set_add cache.policies cache.line_size cache.block_offset_mask mem
              (cache.sets.getD (decode_index cache address) ⟨0, [], []⟩) address
              (decode_tag cache address) rand).1 ⟨false, 0, []⟩)
          (decode_offset cache address),
        cache := { cache with
            sets := cache.sets.set (decode_index cache address)
              (cache_set_add cache.policies cache.line_size cache.block_offset_mask mem
                (cache.sets.getD (decode_index cache address) ⟨0, [], []⟩) address
                (decode_tag cache address) rand).2
            access_count := (cache.access_count + 1) % 2 ^ 32
            miss_count := (cache.miss_count + 1) % 2 ^ 32 },
        trace := if cache.policies &&& CACHE_TRACE_MASK = CACHE_TRACEPOLICY then
            [miss_trace_record (decode_index cache address) address]
          else [] } := by
  have h2 := cache_set_find_matching_line_none_set h
  simp only [cache_read]
  rw [h, h2]

/-- Every read in a sequence of reads of one address hits and returns the
fixed word `V` held at the matching slot, leaving `miss_count` unchanged, as
long as the set at the address's index has a (first) matching line at slot `v`
whose stored word is `V`. -/
theorem cache_read_seq_hits (mem : Nat → Nat) (address : Nat) :
    ∀ (rs : List Nat) (c : Cache) (v V : Nat),
      decode_index c address < c.sets.length →
      scan_matching (decode_tag c address)
        (c.sets.getD (decode_index c address) ⟨0, [], []⟩).lines = some v →
      cache_line_retrieve_data
        ((c.sets.getD (decode_index c address) ⟨0, [], []⟩).lines.getD v ⟨false, 0, []⟩)
        (decode_offset c address) = V →
      (cache_read_seq c mem address rs).1 = List.replicate rs.length V ∧
      (cache_read_seq c mem address rs).2.miss_count = c.miss_count := by
  intro rs
  induction rs with
  | nil =>
      intro c v V _ _ _
      exact ⟨rfl, rfl⟩
  | cons r rs ih =>
      intro c v V hidx hscan hV
      have hfst : (cache_set_find_matching_line c.policies
          (c.sets.getD (decode_index c address) ⟨0, [], []⟩)
          (decode_tag c address)).1 = some v := by
        rw [cache_set_find_matching_line_fst]
        exact hscan
      have hread := cache_read_hit mem r hfst
      have hlines := cache_set_find_matching_line_lines c.policies
        (c.sets.getD (decode_index c address) ⟨0, [], []⟩) (decode_tag c address)
      have hval : (cache_read c mem address r).value = V := by
        simp only [hread, hlines]
        exact hV
      have hc1 : (cache_read c mem address r).cache = { c with
          sets := c.sets.set (decode_index c address)
            (cache_set_find_matching_line c.policies
              (c.sets.getD (decode_index c address) ⟨0, [], []⟩)
              (decode_tag c address)).2
          access_count := (c.access_count + 1) % 2 ^ 32 } := by
        rw [hread]
      have hdec_i : decode_index (cache_read c mem address r).cache address =
          decode_index c address := by
        rw [hc1]
        rfl
      have hdec_t : decode_tag (cache_read c mem address r).cache address =
          decode_tag c address := by
        rw [hc1]
        rfl
      have hdec_o : decode_offset (cache_read c mem address r).cache address =
          decode_offset c address := by
        rw [hc1]
        rfl
      have hgetD : (cache_read c mem address r).cache.sets.getD (decode_index c address)
          ⟨0, [], []⟩ = (cache_set_find_matching_line c.policies
            (c.sets.getD (decode_index c address) ⟨0, [], []⟩)
            (decode_tag c address)).2 := by
        rw [hc1]
        exact getD_set_self c.sets (decode_index c address) hidx _ _
      have hstep := ih (cache_read c mem address r).cache v V
        (by rw [hdec_i, hc1]; simpa using hidx)
        (by rw [hdec_t, hdec_i, hgetD, hlines]; exact hscan)
        (by rw [hdec_o, hdec_i, hgetD, hlines]; exact hV)
      have hmc : (cache_read c mem address r).cache.miss_count = c.miss_count := by
        rw [hc1]
      refine ⟨?_, ?_⟩
      · show ((cache_read c mem address r).value ::
            (cache_read_seq (cache_read c mem address r).cache mem address rs).1) = _
        rw [hval, hstep.1]
        rfl
      · show (cache_read_seq (cache_read c mem address r).cache mem address rs).2.miss_count = _
        rw [hstep.2, hmc]

/-- C9: if a `cache_read` of an address misses and fills a line (on any
well-formed cache, under every replacement policy), then every subsequent
`cache_read` of the same address with no intervening accesses is a hit — the
whole sequence returns exactly the word the first read returned, and
`miss_count` never moves again. -/
theorem claim_C9 (cache : Cache) (mem : Nat → Nat) (address r0 : Nat) (rs : List Nat)
    (hidx : decode_index cache address < cache.sets.length)
    (hwf : set_wf (cache.sets.getD (decode_index cache address) ⟨0, [], []⟩))
    (hmiss : (cache_set_find_matching_line cache.policies
        (cache.sets.getD (decode_index cache address) ⟨0, [], []⟩)
        (decode_tag cache address)).1 = none) :
    (cache_read cache mem address r0).cache.miss_count = (cache.miss_count + 1) % 2 ^ 32 ∧
    (cache_read_seq (cache_read cache mem address r0).cache mem address rs).1 =
      List.replicate rs.length (cache_read cache mem address r0).value ∧
    (cache_read_seq (cache_read cache mem address r0).cache mem address rs).2.miss_count =
      (cache_read cache mem address r0).cache.miss_count := by
  have hread := cache_read_miss mem r0 hmiss
  have hscan0 : scan_matching (decode_tag cache address)
      (cache.sets.getD (decode_index cache address) ⟨0, [], []⟩).lines = none := by
    rw [← cache_set_find_matching_line_fst]
    exact hmiss
  have hall := check_false_of_scan_matching_none hscan0
  have hvlt : (cache_set_add cache.policies cache.line_size cache.block_offset_mask mem
      (cache.sets.getD (decode_index cache address) ⟨0, [], []⟩) address
      (decode_tag cache address) r0).1 <
      (cache.sets.getD (decode_index cache address) ⟨0, [], []⟩).lines.length := by
    unfold cache_set_add
    exact find_available_cache_line_lt hwf
  have haddlines : (cache_set_add cache.policies cache.line_size cache.block_offset_mask mem
      (cache.sets.getD (decode_index cache address) ⟨0, [], []⟩) address
      (decode_tag cache address) r0).2.lines =
      (cache.sets.getD (decode_index cache address) ⟨0, [], []⟩).lines.set
        (cache_set_add cache.policies cache.line_size cache.block_offset_mask mem
          (cache.sets.getD (decode_index cache address) ⟨0, [], []⟩) address
          (decode_tag cache address) r0).1
        { is_valid := true, tag := decode_tag cache address,
          block := fill_block cache.line_size cache.block_offset_mask mem address } := by
    unfold cache_set_add
    simp [find_available_cache_line_lines]
  have hscan1 : scan_matching (decode_tag cache address)
      (cache_set_add cache.policies cache.line_size cache.block_offset_mask mem
        (cache.sets.getD (decode_index cache address) ⟨0, [], []⟩) address
        (decode_tag cache address) r0).2.lines = some
      (cache_set_add cache.policies cache.line_size cache.block_offset_mask mem
        (cache.sets.getD (decode_index cache address) ⟨0, [], []⟩) address
        (decode_tag cache address) r0).1 := by
    rw [haddlines]
    exact scan_matching_set hall (by simp [cache_line_check_validity_and_tag]) hvlt
  have hc1 : (cache_read cache mem address r0).cache = { cache with
      sets := cache.sets.set (decode_index cache address)
        (cache_set_add cache.policies cache.line_size cache.block_offset_mask mem
          (cache.sets.getD (decode_index cache address) ⟨0, [], []⟩) address
          (decode_tag cache address) r0).2
      access_count := (cache.access_count + 1) % 2 ^ 32
      miss_count := (cache.miss_count + 1) % 2 ^ 32 } := by
    rw [hread]
  have hdec_i : decode_index (cache_read cache mem address r0).cache address =
      decode_index cache address := by
    rw [hc1]
    rfl
  have hdec_t : decode_tag (cache_read cache mem address r0).cache address =
      decode_tag cache address := by
    rw [hc1]
    rfl
  have hdec_o : decode_offset (cache_read cache mem address r0).cache address =
      decode_offset cache address := by
    rw [hc1]
    rfl
  have hgetD : (cache_read cache mem address r0).cache.sets.getD (decode_index cache address)
      ⟨0, [], []⟩ = (cache_set_add cache.policies cache.line_size cache.block_offset_mask mem
        (cache.sets.getD (decode_index cache address) ⟨0, [], []⟩) address
        (decode_tag cache address) r0).2 := by
    rw [hc1]
    exact getD_set_self cache.sets (decode_index cache address) hidx _ _
  have hvalue : (cache_read cache mem address r0).value = cache_line_retrieve_data
      ((cache_set_add cache.policies cache.line_size cache.block_offset_mask mem
        (cache.sets.getD (decode_index cache address) ⟨0, [], []⟩) address
        (decode_tag cache address) r0).2.lines.getD
        (cache_set_add cache.policies cache.line_size cache.block_offset_mask mem
          (cache.sets.getD (decode_index cache address) ⟨0, [], []⟩) address
          (decode_tag cache address) r0).1 ⟨false, 0, []⟩)
      (decode_offset cache address) := by
    rw [hread]
  have hmain := cache_read_seq_hits mem address rs (cache_read cache mem address r0).cache
    (cache_set_add cache.policies cache.line_size cache.block_offset_mask mem
      (cache.sets.getD (decode_index cache address) ⟨0, [], []⟩) address
      (decode_tag cache address) r0).1
    (cache_read cache mem address r0).value
    (by rw [hdec_i, hc1]; simpa using hidx)
    (by rw [hdec_t, hdec_i, hgetD]; exact hscan1)
    (by rw [hdec_o, hdec_i, hgetD]; exact hvalue.symm)
  refine ⟨?_, hmain.1, hmain.2⟩
  rw [hc1]

/-- C9 witness: on a fresh 2-way random-policy cache, the first read of
address 0 misses; the two following reads of address 0 both return the word
the first read returned. -/
theorem claim_C9_witness :
    (cache_read_seq (cache_read (cache_new 64 16 2 0) (fun a => a) 0 0).cache
        (fun a => a) 0 [5, 6]).1 =
      List.replicate ([5, 6] : List Nat).length
        (cache_read (cache_new 64 16 2 0) (fun a => a) 0 0).value :=
  (claim_C9 (cache_new 64 16 2 0) (fun a => a) 0 0 [5, 6] (by decide)
    (by unfold set_wf; decide) (by decide)).2.1

end ReadCache
